import Mathlib

/-!
Verification of the R-GCN embedding / similarity-search backend
(`backend/python-rgcn`): graph index construction (`app.py` startup),
the R-GCN model and trainer (`models/rgcn_model.py`) and the
embedding/similarity service (`services/embedding_service.py`).

Embeddings and model parameters are modelled over `ℚ` (exact arithmetic in
place of floating point); cosine similarity and the binary cross-entropy
loss, which need `sqrt`/`log`/`exp`, live in `ℝ`.

Python dictionaries are modelled as association lists with insertion-order
semantics (`dictInsert` keeps the position of an existing key and replaces
its value, and appends a fresh key at the end, exactly as CPython dicts do);
`dictLookup` returns the value of the (unique) binding of a key.
-/

namespace RGCN

/-- Dot product of two vectors, `(a * b).sum()` over zipped entries. -/
def dot {α : Type} [Mul α] [Add α] [Zero α] (a b : List α) : α :=
  (List.zipWith (fun x y => x * y) a b).sum

/-- Elementwise vector addition. -/
def vadd {α : Type} [Add α] (a b : List α) : List α :=
  List.zipWith (fun x y => x + y) a b

/-- Scalar multiple of a vector. -/
def smul {α : Type} [Mul α] (c : α) (v : List α) : List α :=
  v.map (fun x => c * x)

/-- Sum of a list of vectors of dimension `d`. -/
def vsum {α : Type} [Add α] [Zero α] (d : Nat) (l : List (List α)) : List α :=
  l.foldl vadd (List.replicate d 0)

/-- Matrix–vector product: one dot product per weight row. -/
def matVec {α : Type} [Mul α] [Add α] [Zero α] (W : List (List α)) (v : List α) : List α :=
  W.map (fun row => dot row v)

/-- Rectified linear unit, `max(0, x)` elementwise on a vector. -/
def reluVec (v : List ℚ) : List ℚ :=
  v.map (fun x => max 0 x)

/-- `F.relu` applied to a whole matrix. -/
def reluMat (x : List (List ℚ)) : List (List ℚ) :=
  x.map reluVec

/-- Python `dict` insertion: update the value in place if the key exists
(keeping its position), otherwise append the binding at the end. -/
def dictInsert {κ ν : Type} [DecidableEq κ] (k : κ) (v : ν) : List (κ × ν) → List (κ × ν)
  | [] => [(k, v)]
  | p :: t => if p.1 = k then (k, v) :: t else p :: dictInsert k v t

/-- Python `dict` lookup: the value of the first (hence only) binding of `k`. -/
def dictLookup {κ ν : Type} [DecidableEq κ] (k : κ) : List (κ × ν) → Option ν
  | [] => none
  | p :: t => if p.1 = k then some p.2 else dictLookup k t

/-- The keys of a dictionary, in insertion order. -/
def dictKeys {κ ν : Type} (l : List (κ × ν)) : List κ :=
  l.map Prod.fst

/-- Python `enumerate(l, start := n)`. -/
def pyEnumFrom {α : Type} (n : Nat) : List α → List (Nat × α)
  | [] => []
  | a :: t => (n, a) :: pyEnumFrom (n + 1) t

/-- Python slice `l[:k]` for an arbitrary (possibly negative) integer `k`:
nonnegative `k` takes the first `k` elements; negative `k` stops `|k|`
elements before the end. -/
def pySliceTo {α : Type} (k : Int) (l : List α) : List α :=
  if 0 ≤ k then l.take k.toNat else l.take ((l.length : Int) + k).toNat

/-- The mapping-building loop of `app.py` `startup`:
`for idx, entity_id in enumerate(entity_ids): node_to_entity[idx] = entity_id;
entity_to_node[entity_id] = idx`.  Returns `(entity_to_node, node_to_entity)`. -/
def build_mappings (entity_ids : List String) :
    List (String × Nat) × List (Nat × String) :=
  (pyEnumFrom 0 entity_ids).foldl
    (fun m p => (dictInsert p.2 p.1 m.1, dictInsert p.1 p.2 m.2)) ([], [])

/-- Modelled from the spec: one relational graph-convolution layer.  The class
`RGCNConv` itself comes from the third-party `torch_geometric` library and is
not part of this repository; §4.3 of the spec gives its per-layer computation
(`self_transform` plus, for every relation, the mean over that relation's
in-neighborhood of a per-relation transform).  A layer is its parameters: a
self-loop weight matrix and one weight matrix per relation (each stored as a
list of rows, so the output dimension is the row count). -/
structure RGCNConv where
  selfW : List (List ℚ)
  relW : List (List (List ℚ))

/-- Output dimension of a convolution layer: the number of rows of its
self-loop weight matrix. -/
def RGCNConv.outDim (c : RGCNConv) : Nat := c.selfW.length

/-- The sources of edges of relation `r` arriving at node `v`
(with multiplicity), the in-neighborhood used for mean aggregation. -/
def inNeighborsUnder (edge_index : List (Nat × Nat)) (edge_type : List Nat)
    (r v : Nat) : List Nat :=
  ((edge_index.zip edge_type).filter (fun p => p.1.2 = v ∧ p.2 = r)).map
    (fun p => p.1.1)

/-- Modelled from the spec: applying one `RGCNConv` layer to the node-feature
matrix `x` (§4.3): every node `v` gets
`self_transform(x_v) + Σ_r (1/|N_r(v)|) Σ_{u ∈ N_r(v)} relation_transform_r(x_u)`,
relations with empty in-neighborhood at `v` contributing zero. -/
def applyRGCNConv (c : RGCNConv) (edge_index : List (Nat × Nat))
    (edge_type : List Nat) (x : List (List ℚ)) : List (List ℚ) :=
  (List.range x.length).map (fun v =>
    let selfPart := matVec c.selfW (x.getD v [])
    let relPart := (List.range c.relW.length).foldl (fun acc r =>
      let ns := inNeighborsUnder edge_index edge_type r v
      if ns.length = 0 then acc
      else vadd acc (smul ((ns.length : ℚ))⁻¹
        (vsum c.outDim (ns.map (fun u => matVec (c.relW.getD r []) (x.getD u [])))))
      ) (List.replicate c.outDim 0)
    vadd selfPart relPart)

/-- The layer dimension schedule the `RGCNModel.__init__` constructor builds:
`num_layers == 1` gives one `embedding_dim → embedding_dim` layer; otherwise
one `embedding_dim → hidden_dim` layer, `num_layers - 2` layers
`hidden_dim → hidden_dim`, and a final `hidden_dim → embedding_dim` layer. -/
def convDims (embedding_dim hidden_dim num_layers : Nat) : List (Nat × Nat) :=
  if num_layers = 1 then [(embedding_dim, embedding_dim)]
  else ((embedding_dim, hidden_dim) ::
          List.replicate (num_layers - 2) (hidden_dim, hidden_dim)) ++
        [(hidden_dim, embedding_dim)]

/-- The dimension schedule in the words of the spec (§4.3): for `L = 1`,
input = output = `embedding_dim`; for `L > 1`, layer 1 maps
`embedding_dim → hidden_dim`, layers `2..L-1` map `hidden_dim → hidden_dim`,
and layer `L` maps `hidden_dim → embedding_dim`. -/
def specDimSchedule (embedding_dim hidden_dim L : Nat) : List (Nat × Nat) :=
  if L = 1 then [(embedding_dim, embedding_dim)]
  else [(embedding_dim, hidden_dim)] ++
    ((List.range (L - 2)).map (fun _ => (hidden_dim, hidden_dim))) ++
    [(hidden_dim, embedding_dim)]

/-- The `RGCNModel` of `models/rgcn_model.py`: hyperparameters, the learnable
node-embedding table (`node_embedding.weight`, one row per node), and the
stack of convolution layers. -/
structure RGCNModel where
  num_nodes : Nat
  num_relations : Nat
  embedding_dim : Nat
  hidden_dim : Nat
  num_layers : Nat
  node_embedding : List (List ℚ)
  convs : List RGCNConv

/-- A model state as `RGCNModel.__init__` produces it: the table has
`num_nodes` rows of `embedding_dim` entries, and the convolution layers
follow `convDims`, each holding `num_relations` relation transforms whose
output dimension matches the layer's. -/
def RGCNModel.WF (m : RGCNModel) : Prop :=
  m.node_embedding.length = m.num_nodes
  ∧ (∀ row ∈ m.node_embedding, row.length = m.embedding_dim)
  ∧ List.Forall₂ (fun (c : RGCNConv) (d : Nat × Nat) =>
      c.selfW.length = d.2 ∧ c.relW.length = m.num_relations ∧
        ∀ W ∈ c.relW, W.length = d.2)
      m.convs (convDims m.embedding_dim m.hidden_dim m.num_layers)

/-- `RGCNModel.forward`: start from the embedding table and run the layer
loop `for i, conv in enumerate(self.convs): x = conv(x, ...);`
`if i < len(self.convs) - 1: x = F.relu(x)`. -/
def RGCNModel.forward (m : RGCNModel) (edge_index : List (Nat × Nat))
    (edge_type : List Nat) : List (List ℚ) :=
  (pyEnumFrom 0 m.convs).foldl
    (fun x p =>
      let y := applyRGCNConv p.2 edge_index edge_type x
      if p.1 < m.convs.length - 1 then reluMat y else y)
    m.node_embedding

/-- The layer loop in the words of the spec: apply the layers in order with
the rectified-linear nonlinearity after every layer except the last. -/
def forwardReluExceptLast (edge_index : List (Nat × Nat)) (edge_type : List Nat) :
    List RGCNConv → List (List ℚ) → List (List ℚ)
  | [], x => x
  | [c], x => applyRGCNConv c edge_index edge_type x
  | c :: c' :: cs, x =>
      forwardReluExceptLast edge_index edge_type (c' :: cs)
        (reluMat (applyRGCNConv c edge_index edge_type x))

/-- Entrywise cast of a rational vector to a real vector. -/
def castVec (a : List ℚ) : List ℝ := a.map Rat.cast

/-- Euclidean norm of a real vector. -/
noncomputable def l2norm (v : List ℝ) : ℝ := Real.sqrt (dot v v)

/-- Row normalization as `sklearn.preprocessing.normalize` performs it inside
`cosine_similarity`: divide by the Euclidean norm, leaving rows of zero norm
unchanged (sklearn substitutes 1 for a zero norm before dividing). -/
noncomputable def normalizeRow (v : List ℝ) : List ℝ :=
  if l2norm v = 0 then v else v.map (fun t => t / l2norm v)

/-- `sklearn.metrics.pairwise.cosine_similarity` of two embedding rows:
the dot product of the normalized rows. -/
noncomputable def cosineSim (a b : List ℚ) : ℝ :=
  dot (normalizeRow (castVec a)) (normalizeRow (castVec b))

/-- One entry of the `find_similar_entities` result list:
`{'entity_id': ..., 'score': ..., 'label': 'Entity'}`. -/
structure SimResult where
  entity_id : String
  score : ℝ
  label : String

/-- Insert into a descending-by-score list, after every element of score
greater than or equal to the new one — the insertion step of a stable
descending sort, the order `list.sort(key=lambda x: x['score'], reverse=True)`
produces (Python's sort is stable). -/
noncomputable def insertDesc (x : SimResult) : List SimResult → List SimResult
  | [] => [x]
  | y :: ys => if y.score < x.score then x :: y :: ys else y :: insertDesc x ys

/-- Stable descending sort by score, modelling
`similarities.sort(key=lambda x: x['score'], reverse=True)`: a stable sort
with respect to a total preorder on the keys is uniquely determined, so this
insertion sort returns exactly what Python's stable sort returns. -/
noncomputable def sortDesc (l : List SimResult) : List SimResult :=
  l.foldl (fun acc x => insertDesc x acc) []

/-- The `EmbeddingService` of `services/embedding_service.py`: the model and
the two index mappings. -/
structure EmbeddingService where
  model : RGCNModel
  entity_to_node : List (String × Nat)
  node_to_entity : List (Nat × String)

/-- `EmbeddingService.get_embeddings`: with no argument, the full
`node_embedding.weight` table keyed by entity id (iterating
`node_to_entity.items()`); with an argument, the table rows of the
identifiers that resolve through `entity_to_node`, unresolved identifiers
silently dropped. -/
def EmbeddingService.get_embeddings (s : EmbeddingService)
    (entity_ids : Option (List String)) : List (String × List ℚ) :=
  match entity_ids with
  | none =>
      s.node_to_entity.foldl
        (fun result p => dictInsert p.2 (s.model.node_embedding.getD p.1 []) result) []
  | some ids =>
      let valid := ids.filterMap
        (fun eid => (dictLookup eid s.entity_to_node).map (fun i => (eid, i)))
      valid.foldl
        (fun result p => dictInsert p.1 (s.model.node_embedding.getD p.2 []) result) []

/-- `EmbeddingService.find_similar_entities`: empty result if the identifier
is unmapped; otherwise score every other entity of the full embedding dict by
cosine similarity against the query row, sort descending by score, and take
the Python slice `[:top_k]`. -/
noncomputable def EmbeddingService.find_similar_entities (s : EmbeddingService)
    (entity_id : String) (top_k : Int) : List SimResult :=
  if (dictLookup entity_id s.entity_to_node).isNone then []
  else
    match dictLookup entity_id (s.get_embeddings (some [entity_id])) with
    | none => []
    | some query_emb =>
        let all_embeddings := s.get_embeddings none
        let similarities := (all_embeddings.filter (fun p => ¬ (p.1 = entity_id))).map
          (fun p => { entity_id := p.1, score := cosineSim query_emb p.2,
                      label := "Entity" : SimResult })
        pySliceTo top_k (sortDesc similarities)

/-- `EmbeddingService.compute_similarity_matrix`: the pairwise cosine
similarities of the rows of the requested identifiers that resolve. -/
noncomputable def EmbeddingService.compute_similarity_matrix (s : EmbeddingService)
    (entity_ids : List String) : List (List ℝ) :=
  let embeddings := s.get_embeddings (some entity_ids)
  let emb_matrix := entity_ids.filterMap (fun eid => dictLookup eid embeddings)
  emb_matrix.map (fun a => emb_matrix.map (fun b => cosineSim a b))

/-- The service object the request handlers of `app.py` build:
`EmbeddingService(model, entity_to_node, node_to_entity)` with the mappings
the startup loop built from `entity_ids`. -/
def mkService (m : RGCNModel) (entity_ids : List String) : EmbeddingService :=
  { model := m
    entity_to_node := (build_mappings entity_ids).1
    node_to_entity := (build_mappings entity_ids).2 }

/-- `RGCNTrainer._score_edges`: the dot product of the source and target
rows of the embedding matrix, one score per edge; no relation type enters. -/
def score_edges (embeddings : List (List ℚ)) (edge_index : List (Nat × Nat)) :
    List ℚ :=
  edge_index.map (fun e => dot (embeddings.getD e.1 []) (embeddings.getD e.2 []))

/-- `RGCNTrainer._sample_negative_edges`, with the two `torch.randint` draws
supplied as oracle lists: the sampled pairs are exactly the two draws zipped,
nothing filtered out. -/
def sample_negative_edges (neg_source neg_target : List Nat) : List (Nat × Nat) :=
  neg_source.zip neg_target

/-- The logistic sigmoid. -/
noncomputable def sigmoid (x : ℝ) : ℝ := 1 / (1 + Real.exp (-x))

/-- Pointwise `F.binary_cross_entropy_with_logits` of a logit `x` against a
target `y`: `-(y·log σ(x) + (1-y)·log(1-σ(x)))`. -/
noncomputable def bceWithLogits (x y : ℝ) : ℝ :=
  -(y * Real.log (sigmoid x) + (1 - y) * Real.log (1 - sigmoid x))

/-- `F.binary_cross_entropy_with_logits` of a score vector against a constant
target, with the default mean reduction. -/
noncomputable def bce_with_logits_mean (scores : List ℚ) (y : ℝ) : ℝ :=
  ((scores.map (fun x => bceWithLogits (x : ℝ) y)).sum) / (scores.length : ℝ)

/-- The loss `RGCNTrainer.train_epoch` computes and returns: a forward pass,
dot-product scores of the true edges and of the sampled negative pairs, and
the sum of the two binary cross-entropy terms (targets 1 and 0). -/
noncomputable def train_epoch_loss (m : RGCNModel) (edge_index : List (Nat × Nat))
    (edge_type : List Nat) (neg_source neg_target : List Nat) : ℝ :=
  let embeddings := m.forward edge_index edge_type
  let pos_scores := score_edges embeddings edge_index
  let neg_scores := score_edges embeddings (sample_negative_edges neg_source neg_target)
  bce_with_logits_mean pos_scores 1 + bce_with_logits_mean neg_scores 0

/-- The graph structure `Neo4jConnector.get_graph_data` returns. -/
structure GraphData where
  entity_ids : List String
  labels : List String
  edges : List (Nat × Nat)
  edge_types : List Nat
  rel_type_map : List (String × Nat)

/-- Modelled from the spec: the error taxonomy of §7.  `EmptyGraphError` is
named by the spec but exists nowhere in the code; it is declared here only so
that "startup signals `EmptyGraphError`" is statable against the code. -/
inductive StartupError where
  | emptyGraphError
deriving DecidableEq

/-- How `startup` in `app.py` can end: an unreachable graph database
(warning printed, early return), an empty graph (warning printed, early
return, no model constructed), or a ready service with the built mappings
and the dimensions the model is constructed from. -/
inductive StartupOutcome where
  | limited
  | degraded
  | ready (entity_to_node : List (String × Nat)) (node_to_entity : List (Nat × String))
      (num_nodes num_relations : Nat)
deriving DecidableEq

/-- The `startup` handler of `app.py`: test the connection, load the graph,
return early (normally, only printing a warning) when it has no nodes, and
otherwise build the mappings and construct the model.  The return type is
`Except` to make visible that no exception is thrown on any of these paths. -/
def startup (connected : Bool) (g : GraphData) :
    Except StartupError StartupOutcome :=
  if connected = false then Except.ok StartupOutcome.limited
  else if g.entity_ids.length = 0 then Except.ok StartupOutcome.degraded
  else Except.ok (StartupOutcome.ready (build_mappings g.entity_ids).1
    (build_mappings g.entity_ids).2 g.entity_ids.length g.rel_type_map.length)

/-! ### Dictionary and enumeration lemmas -/

theorem dictLookup_dictInsert_self {κ ν : Type} [DecidableEq κ] (k : κ) (v : ν) :
    ∀ l : List (κ × ν), dictLookup k (dictInsert k v l) = some v := by
  intro l
  induction l with
  | nil => simp [dictInsert, dictLookup]
  | cons p t ih =>
      by_cases h : p.1 = k
      · simp [dictInsert, dictLookup, h]
      · simp [dictInsert, dictLookup, h, ih]

theorem dictLookup_dictInsert_ne {κ ν : Type} [DecidableEq κ] (k k' : κ) (v : ν)
    (hne : k' ≠ k) :
    ∀ l : List (κ × ν), dictLookup k' (dictInsert k v l) = dictLookup k' l := by
  have hkk : ¬ k = k' := fun h => hne h.symm
  intro l
  induction l with
  | nil => simp [dictInsert, dictLookup, hkk]
  | cons p t ih =>
      by_cases h : p.1 = k
      · subst h
        simp [dictInsert, dictLookup, hkk]
      · simp [dictInsert, dictLookup, h, ih]

theorem dictInsert_fresh {κ ν : Type} [DecidableEq κ] (k : κ) (v : ν) :
    ∀ l : List (κ × ν), k ∉ dictKeys l → dictInsert k v l = l ++ [(k, v)] := by
  intro l
  induction l with
  | nil => intro _; simp [dictInsert]
  | cons p t ih =>
      intro hk
      simp only [dictKeys, List.map_cons, List.mem_cons] at hk
      push_neg at hk
      have hp : ¬ p.1 = k := fun h => hk.1 h.symm
      simp [dictInsert, hp, ih hk.2]

theorem foldl_pair_split {α β γ : Type} (f : β → α → β) (g : γ → α → γ) :
    ∀ (l : List α) (a : β) (b : γ),
      l.foldl (fun m p => (f m.1 p, g m.2 p)) (a, b) = (l.foldl f a, l.foldl g b) := by
  intro l
  induction l with
  | nil => intro a b; rfl
  | cons x t ih => intro a b; simp [List.foldl_cons, ih]

theorem foldl_dictInsert_append {α ν : Type} {κ : Type} [DecidableEq κ]
    (key : α → κ) (val : α → ν) :
    ∀ (l : List α) (acc : List (κ × ν)),
      (∀ p ∈ l, key p ∉ dictKeys acc) → (l.map key).Nodup →
      l.foldl (fun a p => dictInsert (key p) (val p) a) acc
        = acc ++ l.map (fun p => (key p, val p)) := by
  intro l
  induction l with
  | nil => intro acc _ _; simp
  | cons x t ih =>
      intro acc hfresh hnd
      simp only [List.map_cons, List.nodup_cons] at hnd
      have hx : key x ∉ dictKeys acc := hfresh x (List.mem_cons_self x t)
      rw [List.foldl_cons, dictInsert_fresh (key x) (val x) acc hx,
        ih (acc ++ [(key x, val x)])
          (by
            intro p hp
            simp only [dictKeys, List.map_append, List.mem_append, List.map_cons,
              List.map_nil, List.mem_singleton]
            push_neg
            refine ⟨hfresh p (List.mem_cons_of_mem x hp), ?_⟩
            intro hkk
            exact hnd.1 (hkk ▸ List.mem_map_of_mem key hp))
          hnd.2]
      simp

theorem dictLookup_foldl_of_const {α ν : Type} {κ : Type} [DecidableEq κ]
    (key : α → κ) (val : α → ν) (g : κ → ν) :
    ∀ (l : List α) (acc : List (κ × ν)) (k : κ),
      (∀ p ∈ l, key p = k → val p = g k) →
      dictLookup k (l.foldl (fun a p => dictInsert (key p) (val p) a) acc)
        = if k ∈ l.map key then some (g k) else dictLookup k acc := by
  intro l
  induction l with
  | nil => intro acc k _; simp
  | cons x t ih =>
      intro acc k hconst
      rw [List.foldl_cons,
        ih (dictInsert (key x) (val x) acc) k
          (fun p hp => hconst p (List.mem_cons_of_mem x hp))]
      by_cases hmem : k ∈ t.map key
      · simp [hmem]
      · by_cases hk : key x = k
        · rw [hk, dictLookup_dictInsert_self]
          have hval : val x = g k := hconst x (List.mem_cons_self x t) hk
          simp [hmem, hk, hval]
        · rw [dictLookup_dictInsert_ne (key x) k (val x) (fun h => hk h.symm)]
          have hk' : ¬ k = key x := fun h => hk h.symm
          simp [hmem, hk']

theorem pyEnumFrom_map_snd {α : Type} : ∀ (n : Nat) (l : List α),
    (pyEnumFrom n l).map Prod.snd = l := by
  intro n l
  induction l generalizing n with
  | nil => rfl
  | cons a t ih => simp [pyEnumFrom, ih]

theorem pyEnumFrom_length {α : Type} : ∀ (n : Nat) (l : List α),
    (pyEnumFrom n l).length = l.length := by
  intro n l
  induction l generalizing n with
  | nil => rfl
  | cons a t ih => simp [pyEnumFrom, ih]

theorem mem_pyEnumFrom_fst_ge {α : Type} : ∀ (n : Nat) (l : List α)
    (p : Nat × α), p ∈ pyEnumFrom n l → n ≤ p.1 := by
  intro n l
  induction l generalizing n with
  | nil => intro p hp; simp [pyEnumFrom] at hp
  | cons a t ih =>
      intro p hp
      simp only [pyEnumFrom, List.mem_cons] at hp
      rcases hp with h | h
      · simp [h]
      · exact Nat.le_of_succ_le (ih (n + 1) p h)

theorem pyEnumFrom_pairwise_fst {α : Type} : ∀ (n : Nat) (l : List α),
    (pyEnumFrom n l).Pairwise (fun p q => p.1 < q.1) := by
  intro n l
  induction l generalizing n with
  | nil => simp [pyEnumFrom]
  | cons a t ih =>
      simp only [pyEnumFrom, List.pairwise_cons]
      exact ⟨fun q hq => Nat.lt_of_lt_of_le (Nat.lt_succ_self n)
        (mem_pyEnumFrom_fst_ge (n + 1) t q hq), ih (n + 1)⟩

theorem dictLookup_pyEnumFrom {α : Type} : ∀ (n i : Nat) (l : List α),
    dictLookup i (pyEnumFrom n l) = if n ≤ i then l[i - n]? else none := by
  intro n i l
  induction l generalizing n with
  | nil => simp [pyEnumFrom, dictLookup]
  | cons a t ih =>
      simp only [pyEnumFrom, dictLookup]
      by_cases h : n = i
      · subst h
        simp
      · rw [if_neg h, ih (n + 1)]
        by_cases hle : n ≤ i
        · have hlt : n < i := Nat.lt_of_le_of_ne hle h
          have h1 : n + 1 ≤ i := hlt
          have h2 : i - n = (i - (n + 1)) + 1 := by omega
          simp [h1, hle, h2]
        · have h1 : ¬ n + 1 ≤ i := by omega
          simp [h1, hle]

theorem dictLookup_pyEnumSwap {α : Type} [DecidableEq α] :
    ∀ (l : List α) (n i : Nat) (s : α), l.Nodup →
      (dictLookup s ((pyEnumFrom n l).map (fun p => (p.2, p.1))) = some i
        ↔ n ≤ i ∧ l[i - n]? = some s) := by
  intro l
  induction l with
  | nil => intro n i s _; simp [pyEnumFrom, dictLookup]
  | cons a t ih =>
      intro n i s hnd
      simp only [List.nodup_cons] at hnd
      simp only [pyEnumFrom, List.map_cons, dictLookup]
      by_cases h : a = s
      · subst h
        simp only [if_pos rfl]
        constructor
        · rintro ⟨rfl⟩
          simp
        · rintro ⟨hle, hget⟩
          rcases Nat.eq_or_lt_of_le hle with h' | h'
          · simp [h'.symm]
          · exfalso
            have h2 : i - n = (i - (n + 1)) + 1 := by omega
            rw [h2] at hget
            simp only [List.getElem?_cons_succ] at hget
            exact hnd.1 (List.getElem?_mem hget)
      · rw [if_neg h, ih (n + 1) i s hnd.2]
        constructor
        · rintro ⟨hle, hget⟩
          refine ⟨by omega, ?_⟩
          have h2 : i - n = (i - (n + 1)) + 1 := by omega
          rw [h2]
          simpa using hget
        · rintro ⟨hle, hget⟩
          have hne : n ≠ i := by
            rintro rfl
            rw [Nat.sub_self] at hget
            simp only [List.getElem?_cons_zero, Option.some_inj] at hget
            exact h hget
          have h1 : n + 1 ≤ i := by omega
          have h2 : i - n = (i - (n + 1)) + 1 := by omega
          rw [h2] at hget
          simp only [List.getElem?_cons_succ] at hget
          exact ⟨h1, hget⟩

/-! ### Characterizations of the built mappings and of `get_embeddings` -/

theorem build_mappings_split (ids : List String) :
    build_mappings ids
      = ((pyEnumFrom 0 ids).foldl (fun d p => dictInsert p.2 p.1 d) [],
         (pyEnumFrom 0 ids).foldl (fun d p => dictInsert p.1 p.2 d) []) := by
  unfold build_mappings
  exact foldl_pair_split (fun d p => dictInsert p.2 p.1 d)
    (fun d p => dictInsert p.1 p.2 d) (pyEnumFrom 0 ids) [] []

theorem pyEnumFrom_map_fst_nodup {α : Type} (n : Nat) (l : List α) :
    ((pyEnumFrom n l).map Prod.fst).Nodup := by
  have h : ((pyEnumFrom n l).map Prod.fst).Pairwise (fun a b => a ≠ b) := by
    rw [List.pairwise_map]
    exact (pyEnumFrom_pairwise_fst n l).imp (fun h => Nat.ne_of_lt h)
  exact h

theorem build_mappings_eq_of_nodup (ids : List String) (hnd : ids.Nodup) :
    build_mappings ids
      = ((pyEnumFrom 0 ids).map (fun p => (p.2, p.1)), pyEnumFrom 0 ids) := by
  rw [build_mappings_split]
  have h1 := foldl_dictInsert_append (Prod.snd : Nat × String → String)
    (Prod.fst : Nat × String → Nat) (pyEnumFrom 0 ids) []
    (by intro p _ hp; simp [dictKeys] at hp)
    (by rw [pyEnumFrom_map_snd]; exact hnd)
  have h2 := foldl_dictInsert_append (Prod.fst : Nat × String → Nat)
    (Prod.snd : Nat × String → String) (pyEnumFrom 0 ids) []
    (by intro p _ hp; simp [dictKeys] at hp)
    (pyEnumFrom_map_fst_nodup 0 ids)
  simp only [List.nil_append] at h1 h2
  rw [h1, h2]
  simp

/-- The value `entity_to_node` assigns to an entity id, for a duplicate-free
entity list: the id's position in the list. -/
theorem dictLookup_entity_to_node (ids : List String) (hnd : ids.Nodup)
    (s : String) (i : Nat) :
    dictLookup s (build_mappings ids).1 = some i ↔ ids[i]? = some s := by
  rw [build_mappings_eq_of_nodup ids hnd]
  simpa using dictLookup_pyEnumSwap ids 0 i s hnd

/-- `node_to_entity` is, for any entity list, the plain enumeration. -/
theorem dictLookup_node_to_entity (ids : List String) (hnd : ids.Nodup)
    (i : Nat) :
    dictLookup i (build_mappings ids).2 = ids[i]? := by
  rw [build_mappings_eq_of_nodup ids hnd]
  simpa using dictLookup_pyEnumFrom 0 i ids

/-- What `get_embeddings` answers for one identifier of a requested list:
the `node_embedding` table row at the index `entity_to_node` maps it to, and
nothing at all for identifiers that are unrequested or unmapped. -/
theorem dictLookup_get_embeddings (s : EmbeddingService) (ids : List String)
    (q : String) :
    dictLookup q (s.get_embeddings (some ids))
      = if q ∈ ids then
          (dictLookup q s.entity_to_node).map
            (fun i => s.model.node_embedding.getD i [])
        else none := by
  show dictLookup q ((ids.filterMap
      (fun eid => (dictLookup eid s.entity_to_node).map (fun i => (eid, i)))).foldl
      (fun result p => dictInsert p.1 (s.model.node_embedding.getD p.2 []) result) [])
    = _
  rw [dictLookup_foldl_of_const (Prod.fst : String × Nat → String)
    (fun p => s.model.node_embedding.getD p.2 [])
    (fun q => s.model.node_embedding.getD ((dictLookup q s.entity_to_node).getD 0) [])
    _ [] q
    (by
      intro p hp hpq
      rcases List.mem_filterMap.mp hp with ⟨a, _, ha⟩
      rcases Option.map_eq_some'.mp ha with ⟨i, hi, hpe⟩
      rw [← hpe] at hpq ⊢
      simp only at hpq ⊢
      rw [hpq] at hi
      rw [hi]
      simp)]
  have hkey : (q ∈ (ids.filterMap
      (fun eid => (dictLookup eid s.entity_to_node).map (fun i => (eid, i)))).map
        (Prod.fst : String × Nat → String))
      ↔ (q ∈ ids ∧ (dictLookup q s.entity_to_node).isSome) := by
    simp only [List.map_filterMap, List.mem_filterMap]
    constructor
    · rintro ⟨a, ha, hsome⟩
      rcases hja : dictLookup a s.entity_to_node with _ | j
      · rw [hja] at hsome; simp at hsome
      · rw [hja] at hsome
        simp only [Option.map_map, Option.map_some', Function.comp,
          Option.some_inj] at hsome
        subst hsome
        exact ⟨ha, by simp [hja]⟩
    · rintro ⟨hmem, hsome⟩
      rcases Option.isSome_iff_exists.mp hsome with ⟨j, hj⟩
      exact ⟨q, hmem, by simp [hj]⟩
  by_cases hq : q ∈ ids ∧ (dictLookup q s.entity_to_node).isSome
  · rcases Option.isSome_iff_exists.mp hq.2 with ⟨i, hi⟩
    rw [if_pos (hkey.mpr hq), if_pos hq.1, hi]
    simp
  · rw [if_neg (fun h => hq (hkey.mp h))]
    by_cases hmem : q ∈ ids
    · have hnone : dictLookup q s.entity_to_node = none := by
        rcases hlk : dictLookup q s.entity_to_node with _ | j
        · rfl
        · exact absurd ⟨hmem, by simp [hlk]⟩ hq
      simp [hmem, hnone, dictLookup]
    · simp [hmem, dictLookup]

/-- The full-table branch of `get_embeddings`, for a duplicate-free entity
set: the entries of `node_to_entity` keyed by entity id, in index order. -/
theorem get_embeddings_none_eq (s : EmbeddingService)
    (hnd : (s.node_to_entity.map Prod.snd).Nodup) :
    s.get_embeddings none
      = s.node_to_entity.map (fun p => (p.2, s.model.node_embedding.getD p.1 [])) := by
  show s.node_to_entity.foldl
      (fun result p => dictInsert p.2 (s.model.node_embedding.getD p.1 []) result) []
    = _
  have h := foldl_dictInsert_append (Prod.snd : Nat × String → String)
    (fun p => s.model.node_embedding.getD p.1 []) s.node_to_entity []
    (by intro p _ hp; simp [dictKeys] at hp) hnd
  simpa using h

/-! ### Stable descending sort and slice lemmas -/

theorem mem_insertDesc (x y : SimResult) :
    ∀ l : List SimResult, y ∈ insertDesc x l ↔ y = x ∨ y ∈ l := by
  intro l
  induction l with
  | nil => simp [insertDesc]
  | cons z t ih =>
      by_cases h : z.score < x.score
      · simp [insertDesc, h]
      · simp [insertDesc, h, ih]
        tauto

theorem length_insertDesc (x : SimResult) :
    ∀ l : List SimResult, (insertDesc x l).length = l.length + 1 := by
  intro l
  induction l with
  | nil => rfl
  | cons z t ih =>
      by_cases h : z.score < x.score
      · simp [insertDesc, h]
      · simp [insertDesc, h, ih]

theorem length_sortDesc_aux :
    ∀ (l acc : List SimResult),
      (l.foldl (fun a x => insertDesc x a) acc).length = acc.length + l.length := by
  intro l
  induction l with
  | nil => intro acc; simp
  | cons x t ih =>
      intro acc
      rw [List.foldl_cons, ih, length_insertDesc]
      simp only [List.length_cons]
      omega

theorem length_sortDesc (l : List SimResult) : (sortDesc l).length = l.length := by
  unfold sortDesc
  rw [length_sortDesc_aux]
  simp

theorem mem_sortDesc_aux (y : SimResult) :
    ∀ (l acc : List SimResult),
      (y ∈ l.foldl (fun a x => insertDesc x a) acc ↔ y ∈ acc ∨ y ∈ l) := by
  intro l
  induction l with
  | nil => intro acc; simp
  | cons x t ih =>
      intro acc
      rw [List.foldl_cons, ih, mem_insertDesc]
      simp
      tauto

theorem mem_sortDesc (y : SimResult) (l : List SimResult) :
    y ∈ sortDesc l ↔ y ∈ l := by
  unfold sortDesc
  rw [mem_sortDesc_aux]
  simp

theorem score_le_of_desc {P : SimResult → SimResult → Prop} {a b : SimResult}
    (h : b.score < a.score ∨ (a.score = b.score ∧ P a b)) : b.score ≤ a.score := by
  rcases h with h | ⟨h, _⟩
  · exact le_of_lt h
  · exact le_of_eq h.symm

theorem insertDesc_pairwise (P : SimResult → SimResult → Prop) (x : SimResult) :
    ∀ l : List SimResult,
      l.Pairwise (fun a b => b.score < a.score ∨ (a.score = b.score ∧ P a b)) →
      (∀ y ∈ l, P y x) →
      (insertDesc x l).Pairwise
        (fun a b => b.score < a.score ∨ (a.score = b.score ∧ P a b)) := by
  intro l
  induction l with
  | nil => intro _ _; simp [insertDesc]
  | cons y ys ih =>
      intro hpw hP
      rw [List.pairwise_cons] at hpw
      by_cases h : y.score < x.score
      · rw [insertDesc, if_pos h, List.pairwise_cons]
        refine ⟨?_, List.pairwise_cons.mpr hpw⟩
        intro z hz
        rcases List.mem_cons.mp hz with rfl | hz'
        · exact Or.inl h
        · exact Or.inl (lt_of_le_of_lt (score_le_of_desc (hpw.1 z hz')) h)
      · rw [insertDesc, if_neg h, List.pairwise_cons]
        constructor
        · intro z hz
          rcases (mem_insertDesc x z ys).mp hz with rfl | hz'
          · rcases lt_or_eq_of_le (le_of_not_lt h) with hlt | heq
            · exact Or.inl hlt
            · exact Or.inr ⟨heq.symm, hP y (List.mem_cons_self y ys)⟩
          · exact hpw.1 z hz'
        · exact ih hpw.2 (fun z hz => hP z (List.mem_cons_of_mem y hz))

theorem sortDesc_pairwise_aux (P : SimResult → SimResult → Prop) :
    ∀ (l acc : List SimResult),
      acc.Pairwise (fun a b => b.score < a.score ∨ (a.score = b.score ∧ P a b)) →
      (∀ x ∈ l, ∀ y ∈ acc, P y x) →
      l.Pairwise P →
      (l.foldl (fun a x => insertDesc x a) acc).Pairwise
        (fun a b => b.score < a.score ∨ (a.score = b.score ∧ P a b)) := by
  intro l
  induction l with
  | nil => intro acc hacc _ _; simpa using hacc
  | cons x t ih =>
      intro acc hacc hcross hl
      rw [List.pairwise_cons] at hl
      rw [List.foldl_cons]
      refine ih (insertDesc x acc)
        (insertDesc_pairwise P x acc hacc
          (fun y hy => hcross x (List.mem_cons_self x t) y hy)) ?_ hl.2
      intro z hz y hy
      rcases (mem_insertDesc x y acc).mp hy with rfl | hy'
      · exact hl.1 z hz
      · exact hcross z (List.mem_cons_of_mem x hz) y hy'

/-- Stability of the descending sort: if the input list is pairwise related
by `P`, the sorted output is descending by score, with `P` (e.g. the original
order) preserved among equal scores. -/
theorem sortDesc_pairwise (P : SimResult → SimResult → Prop)
    (l : List SimResult) (hl : l.Pairwise P) :
    (sortDesc l).Pairwise
      (fun a b => b.score < a.score ∨ (a.score = b.score ∧ P a b)) := by
  unfold sortDesc
  exact sortDesc_pairwise_aux P l [] (by simp) (by simp) hl

theorem pySliceTo_sublist {α : Type} (k : Int) (l : List α) :
    (pySliceTo k l).Sublist l := by
  unfold pySliceTo
  by_cases h : 0 ≤ k
  · rw [if_pos h]; exact List.take_sublist _ _
  · rw [if_neg h]; exact List.take_sublist _ _

theorem length_pySliceTo {α : Type} (k : Int) (l : List α) :
    (pySliceTo k l).length
      = if 0 ≤ k then min k.toNat l.length
        else min ((l.length : Int) + k).toNat l.length := by
  unfold pySliceTo
  by_cases h : 0 ≤ k
  · rw [if_pos h, if_pos h, List.length_take]
  · rw [if_neg h, if_neg h, List.length_take]

/-! ### Dot-product algebra and cosine similarity -/

theorem dot_nil_right {α : Type} [Mul α] [Add α] [Zero α] (a : List α) :
    dot a [] = 0 := by
  cases a <;> simp [dot]

theorem dot_cons {α : Type} [Mul α] [AddCommMonoid α] (x y : α) (a b : List α) :
    dot (x :: a) (y :: b) = x * y + dot a b := by
  simp [dot]

theorem dot_self_nonneg (a : List ℝ) : 0 ≤ dot a a := by
  induction a with
  | nil => simp [dot]
  | cons x t ih =>
      rw [dot_cons]
      exact add_nonneg (mul_self_nonneg x) ih

theorem dot_self_eq_zero_entries (a : List ℝ) (h : dot a a = 0) :
    ∀ x ∈ a, x = 0 := by
  induction a with
  | nil => simp
  | cons x t ih =>
      rw [dot_cons] at h
      have hx : x * x = 0 ∧ dot t t = 0 := by
        constructor
        · nlinarith [dot_self_nonneg t, mul_self_nonneg x]
        · nlinarith [dot_self_nonneg t, mul_self_nonneg x]
      intro y hy
      rcases List.mem_cons.mp hy with rfl | hy'
      · exact (mul_self_eq_zero).mp hx.1
      · exact ih hx.2 y hy'

theorem dot_zero_left (a : List ℝ) (h : ∀ x ∈ a, x = 0) :
    ∀ b, dot a b = 0 := by
  induction a with
  | nil => intro b; cases b <;> simp [dot]
  | cons x t ih =>
      intro b
      cases b with
      | nil => exact dot_nil_right _
      | cons y s =>
          rw [dot_cons, h x (List.mem_cons_self x t),
            ih (fun z hz => h z (List.mem_cons_of_mem x hz)) s]
          ring

theorem dot_zero_right (a : List ℝ) (h : ∀ x ∈ a, x = 0) :
    ∀ b, dot b a = 0 := by
  induction a with
  | nil => intro b; cases b <;> simp [dot]
  | cons x t ih =>
      intro b
      cases b with
      | nil => simp [dot]
      | cons y s =>
          rw [dot_cons, h x (List.mem_cons_self x t),
            ih (fun z hz => h z (List.mem_cons_of_mem x hz)) s]
          ring

theorem dot_map_div (c : ℝ) : ∀ a b : List ℝ,
    dot (a.map (fun t => t / c)) (b.map (fun t => t / c)) = dot a b / (c * c) := by
  intro a
  induction a with
  | nil => intro b; simp [dot]
  | cons x t ih =>
      intro b
      cases b with
      | nil => simp [dot]
      | cons y s =>
          simp only [List.map_cons, dot_cons, ih s]
          field_simp

theorem dot_castVec (a b : List ℚ) :
    dot (castVec a) (castVec b) = ((dot a b : ℚ) : ℝ) := by
  induction a generalizing b with
  | nil => simp [dot, castVec]
  | cons x t ih =>
      cases b with
      | nil => simp [dot, castVec]
      | cons y s =>
          simp only [castVec, List.map_cons, dot_cons] at ih ⊢
          rw [ih s]
          push_cast
          ring

theorem l2norm_sq (a : List ℝ) : l2norm a * l2norm a = dot a a :=
  Real.mul_self_sqrt (dot_self_nonneg a)

theorem l2norm_eq_zero_iff (a : List ℝ) : l2norm a = 0 ↔ dot a a = 0 := by
  constructor
  · intro h
    have h2 := congrArg (fun t : ℝ => t * t) h
    simpa [l2norm_sq a] using h2
  · intro h
    unfold l2norm
    rw [h, Real.sqrt_zero]

theorem cosineSim_self (a : List ℚ) (ha : dot a a ≠ 0) : cosineSim a a = 1 := by
  unfold cosineSim normalizeRow
  have hAA : dot (castVec a) (castVec a) = ((dot a a : ℚ) : ℝ) := dot_castVec a a
  have hAA0 : dot (castVec a) (castVec a) ≠ 0 := by
    rw [hAA]
    exact_mod_cast ha
  have hn0 : ¬ l2norm (castVec a) = 0 := fun h => hAA0 ((l2norm_eq_zero_iff _).mp h)
  rw [if_neg hn0, dot_map_div, l2norm_sq]
  exact div_self hAA0

theorem cosineSim_zero_left (b c : List ℚ) (hb : dot b b = 0) :
    cosineSim b c = 0 := by
  unfold cosineSim normalizeRow
  have hBB : dot (castVec b) (castVec b) = 0 := by
    rw [dot_castVec b b, hb]
    simp
  have hzero : ∀ x ∈ castVec b, x = 0 := dot_self_eq_zero_entries _ hBB
  rw [if_pos ((l2norm_eq_zero_iff _).mpr hBB)]
  by_cases hc : l2norm (castVec c) = 0
  · rw [if_pos hc]
    exact dot_zero_left _ hzero _
  · rw [if_neg hc]
    exact dot_zero_left _ hzero _

theorem cosineSim_zero_right (b c : List ℚ) (hb : dot b b = 0) :
    cosineSim c b = 0 := by
  unfold cosineSim normalizeRow
  have hBB : dot (castVec b) (castVec b) = 0 := by
    rw [dot_castVec b b, hb]
    simp
  have hzero : ∀ x ∈ castVec b, x = 0 := dot_self_eq_zero_entries _ hBB
  rw [if_pos ((l2norm_eq_zero_iff _).mpr hBB)]
  by_cases hc : l2norm (castVec c) = 0
  · rw [if_pos hc]
    exact dot_zero_right _ hzero _
  · rw [if_neg hc]
    exact dot_zero_right _ hzero _

/-! ### Forward-pass shape and layer-loop structure -/

theorem length_matVec {α : Type} [Mul α] [Add α] [Zero α]
    (W : List (List α)) (v : List α) : (matVec W v).length = W.length := by
  simp [matVec]

theorem length_vadd {α : Type} [Add α] (a b : List α) :
    (vadd a b).length = min a.length b.length := by
  simp [vadd]

theorem length_vsum {α : Type} [Add α] [Zero α] (d : Nat) (l : List (List α))
    (h : ∀ v ∈ l, v.length = d) : (vsum d l).length = d := by
  unfold vsum
  have haux : ∀ (l : List (List α)) (acc : List α), acc.length = d →
      (∀ v ∈ l, v.length = d) → (l.foldl vadd acc).length = d := by
    intro l
    induction l with
    | nil => intro acc hacc _; simpa using hacc
    | cons v t ih =>
        intro acc hacc hall
        rw [List.foldl_cons]
        exact ih (vadd acc v)
          (by rw [length_vadd, hacc, hall v (List.mem_cons_self v t)]; simp)
          (fun w hw => hall w (List.mem_cons_of_mem v hw))
  exact haux l (List.replicate d 0) (by simp) h

theorem length_smul {α : Type} [Mul α] (c : α) (v : List α) :
    (smul c v).length = v.length := by
  simp [smul]

theorem length_applyRGCNConv (c : RGCNConv) (edge_index : List (Nat × Nat))
    (edge_type : List Nat) (x : List (List ℚ)) :
    (applyRGCNConv c edge_index edge_type x).length = x.length := by
  simp [applyRGCNConv]

theorem row_length_applyRGCNConv (c : RGCNConv)
    (hrel : ∀ W ∈ c.relW, W.length = c.selfW.length)
    (edge_index : List (Nat × Nat)) (edge_type : List Nat) (x : List (List ℚ)) :
    ∀ row ∈ applyRGCNConv c edge_index edge_type x, row.length = c.selfW.length := by
  intro row hrow
  rcases List.mem_map.mp hrow with ⟨v, _, hv⟩
  have hrelPart : ∀ (rs : List Nat) (acc : List ℚ), acc.length = c.selfW.length →
      (∀ r ∈ rs, r < c.relW.length) →
      ((rs.foldl (fun acc r =>
        let ns := inNeighborsUnder edge_index edge_type r v
        if ns.length = 0 then acc
        else vadd acc (smul ((ns.length : ℚ))⁻¹
          (vsum c.outDim (ns.map (fun u => matVec (c.relW.getD r []) (x.getD u [])))))) acc)).length
        = c.selfW.length := by
    intro rs
    induction rs with
    | nil => intro acc hacc _; simpa using hacc
    | cons r rt ih =>
        intro acc hacc hbound
        rw [List.foldl_cons]
        refine ih _ ?_ (fun r' hr' => hbound r' (List.mem_cons_of_mem r hr'))
        show (if (inNeighborsUnder edge_index edge_type r v).length = 0 then acc
          else vadd acc (smul (((inNeighborsUnder edge_index edge_type r v).length : ℚ))⁻¹
            (vsum c.outDim ((inNeighborsUnder edge_index edge_type r v).map
              (fun u => matVec (c.relW.getD r []) (x.getD u [])))))).length = c.selfW.length
        by_cases hns : (inNeighborsUnder edge_index edge_type r v).length = 0
        · rw [if_pos hns]
          exact hacc
        · have hr : r < c.relW.length := hbound r (List.mem_cons_self r rt)
          have hW : (c.relW.getD r []).length = c.selfW.length := by
            rw [List.getD_eq_getElem?_getD, List.getElem?_eq_getElem hr]
            exact hrel _ (List.getElem_mem hr)
          have hsum : (vsum c.outDim ((inNeighborsUnder edge_index edge_type r v).map
              (fun u => matVec (c.relW.getD r []) (x.getD u [])))).length
              = c.selfW.length := by
            have h := length_vsum c.outDim
              ((inNeighborsUnder edge_index edge_type r v).map
                (fun u => matVec (c.relW.getD r []) (x.getD u [])))
              (by
                intro w hw
                rcases List.mem_map.mp hw with ⟨u, _, hu⟩
                rw [← hu, length_matVec, hW]
                rfl)
            exact h
          rw [if_neg hns, length_vadd, length_smul, hsum, hacc, Nat.min_self]
  rw [← hv]
  show (vadd (matVec c.selfW (x.getD v [])) _).length = c.selfW.length
  rw [length_vadd, length_matVec,
    hrelPart (List.range c.relW.length) (List.replicate c.outDim 0)
      (by simp [RGCNConv.outDim]) (fun r hr => List.mem_range.mp hr),
    Nat.min_self]

theorem length_reluMat (x : List (List ℚ)) : (reluMat x).length = x.length := by
  simp [reluMat]

theorem forwardReluExceptLast_length (edge_index : List (Nat × Nat))
    (edge_type : List Nat) :
    ∀ (cs : List RGCNConv) (x : List (List ℚ)),
      (forwardReluExceptLast edge_index edge_type cs x).length = x.length := by
  intro cs
  induction cs with
  | nil => intro x; rfl
  | cons c ct ih =>
      intro x
      cases ct with
      | nil => exact length_applyRGCNConv c edge_index edge_type x
      | cons c' cs' =>
          rw [forwardReluExceptLast, ih, length_reluMat, length_applyRGCNConv]

theorem forwardReluExceptLast_rows (edge_index : List (Nat × Nat))
    (edge_type : List Nat) :
    ∀ (cs : List RGCNConv) (x : List (List ℚ)) (hne : cs ≠ [])
      (hwf : ∀ c ∈ cs, ∀ W ∈ c.relW, W.length = c.selfW.length),
      ∀ row ∈ forwardReluExceptLast edge_index edge_type cs x,
        row.length = (cs.getLast hne).selfW.length := by
  intro cs
  induction cs with
  | nil => intro x hne; exact absurd rfl hne
  | cons c ct ih =>
      intro x hne hwf
      cases ct with
      | nil =>
          intro row hrow
          exact row_length_applyRGCNConv c
            (hwf c (List.mem_cons_self c [])) edge_index edge_type x row hrow
      | cons c' cs' =>
          intro row hrow
          rw [List.getLast_cons (by simp)]
          exact ih (reluMat (applyRGCNConv c edge_index edge_type x))
            (by simp)
            (fun d hd => hwf d (List.mem_cons_of_mem c hd)) row hrow

theorem foldl_fun_ext {α β : Type} (f g : β → α → β) (h : ∀ b a, f b a = g b a) :
    ∀ (l : List α) (b : β), l.foldl f b = l.foldl g b := by
  have hfg : f = g := funext (fun b => funext (fun a => h b a))
  intro l b
  rw [hfg]

theorem forward_eq_RLE_aux (edge_index : List (Nat × Nat)) (edge_type : List Nat) :
    ∀ (cs : List RGCNConv) (j : Nat) (x : List (List ℚ)),
      (pyEnumFrom j cs).foldl
        (fun x p =>
          let y := applyRGCNConv p.2 edge_index edge_type x
          if p.1 + 1 < j + cs.length then reluMat y else y) x
      = forwardReluExceptLast edge_index edge_type cs x := by
  intro cs
  induction cs with
  | nil => intro j x; rfl
  | cons c ct ih =>
      intro j x
      rw [pyEnumFrom, List.foldl_cons]
      cases ct with
      | nil =>
          show List.foldl _ (if j + 1 < j + [c].length then _ else _) [] = _
          simp only [List.length_singleton, Nat.lt_irrefl, if_false,
            List.foldl_nil, Nat.add_comm]
          rfl
      | cons c' cs' =>
          have hcond : j + 1 < j + (c :: c' :: cs').length := by
            simp only [List.length_cons]
            omega
          show List.foldl _ (if j + 1 < j + (c :: c' :: cs').length then _ else _) _ = _
          rw [if_pos hcond]
          rw [foldl_fun_ext _
            (fun x (p : Nat × RGCNConv) =>
              let y := applyRGCNConv p.2 edge_index edge_type x
              if p.1 + 1 < (j + 1) + (c' :: cs').length then reluMat y else y)
            (by
              intro b p
              show (if p.1 + 1 < j + (c :: c' :: cs').length then _ else _)
                = (if p.1 + 1 < (j + 1) + (c' :: cs').length then _ else _)
              refine if_congr ?_ rfl rfl
              simp only [List.length_cons]
              omega)]
          rw [ih (j + 1)]
          rfl

/-- `RGCNModel.forward` applies the convolution layers in order with the
rectified-linear nonlinearity after every layer except the last. -/
theorem RGCNModel.forward_eq_reluExceptLast (m : RGCNModel)
    (edge_index : List (Nat × Nat)) (edge_type : List Nat) :
    m.forward edge_index edge_type
      = forwardReluExceptLast edge_index edge_type m.convs m.node_embedding := by
  unfold RGCNModel.forward
  rw [foldl_fun_ext _
    (fun x (p : Nat × RGCNConv) =>
      let y := applyRGCNConv p.2 edge_index edge_type x
      if p.1 + 1 < 0 + m.convs.length then reluMat y else y)
    (by
      intro b p
      show (if p.1 < m.convs.length - 1 then _ else _)
        = (if p.1 + 1 < 0 + m.convs.length then _ else _)
      refine if_congr ?_ rfl rfl
      omega)]
  exact forward_eq_RLE_aux edge_index edge_type m.convs 0 m.node_embedding

theorem convDims_ne_nil (e h L : Nat) : convDims e h L ≠ [] := by
  unfold convDims
  by_cases hL : L = 1 <;> simp [hL]

theorem convDims_getLast (e h L : Nat) :
    (convDims e h L).getLast (convDims_ne_nil e h L) = (if L = 1 then (e, e) else (h, e)) := by
  unfold convDims
  by_cases h1 : L = 1
  · simp [h1]
  · simp [h1, List.getLast_append]

theorem forall₂_getLast {α β : Type} (R : α → β → Prop) :
    ∀ (l1 : List α) (l2 : List β), List.Forall₂ R l1 l2 →
      ∀ (h1 : l1 ≠ []) (h2 : l2 ≠ []), R (l1.getLast h1) (l2.getLast h2) := by
  intro l1 l2 hf
  induction hf with
  | nil => intro h1 _; exact absurd rfl h1
  | @cons a b t1 t2 hab hrest ih =>
      intro h1 h2
      cases hrest with
      | nil => simpa using hab
      | @cons a' b' t1' t2' hab2 hrest2 =>
          rw [List.getLast_cons (show a' :: t1' ≠ [] from by simp),
            List.getLast_cons (show b' :: t2' ≠ [] from by simp)]
          exact ih (by simp) (by simp)

theorem forall₂_ne_nil {α β : Type} (R : α → β → Prop) (l1 : List α) (l2 : List β)
    (hf : List.Forall₂ R l1 l2) (h2 : l2 ≠ []) : l1 ≠ [] := by
  cases hf with
  | nil => exact absurd rfl h2
  | cons _ _ => simp

/-! ### Concrete states used by witnesses and counterexamples -/

/-- A one-node, one-layer model whose single convolution layer has the zero
self-transform: a well-formed parameter state under which the forward output
differs from the embedding table. -/
def mOne : RGCNModel :=
  { num_nodes := 1, num_relations := 0, embedding_dim := 1, hidden_dim := 1,
    num_layers := 1, node_embedding := [[1]],
    convs := [{ selfW := [[0]], relW := [] }] }

/-- A two-node, one-layer model used by several witnesses. -/
def mTwo : RGCNModel :=
  { num_nodes := 2, num_relations := 0, embedding_dim := 1, hidden_dim := 1,
    num_layers := 1, node_embedding := [[1], [1]],
    convs := [{ selfW := [[0]], relW := [] }] }

/-- A three-node model used by the slice counterexample. -/
def mThree : RGCNModel :=
  { num_nodes := 3, num_relations := 0, embedding_dim := 1, hidden_dim := 1,
    num_layers := 1, node_embedding := [[1], [1], [1]],
    convs := [{ selfW := [[0]], relW := [] }] }

/-- The graph structure `get_graph_data` returns for an empty graph. -/
def emptyGraphData : GraphData :=
  { entity_ids := [], labels := [], edges := [], edge_types := [],
    rel_type_map := [] }

/-- The one-node model is a well-formed parameter state. -/
theorem mOne_WF : mOne.WF := by
  refine ⟨rfl, ?_, ?_⟩
  · intro row hrow
    simp only [mOne] at hrow
    rcases List.mem_singleton.mp hrow with rfl
    rfl
  · simp [mOne, convDims, List.forall₂_cons]

/-! ### Claim C1 -/

/-- Claim C1, counterexample: in a well-formed one-node, one-layer model
state, `get_embeddings` serves the embedding-table row `[1]`, while the
forward pass over the graph's (empty) edge list produces `[0]` for that node,
so the served vector is the base Embedding Table row and not the output of
the final convolution layer. -/
theorem get_embeddings_not_forward_output :
    mOne.WF
    ∧ dictLookup "a" ((mkService mOne ["a"]).get_embeddings (some ["a"]))
        = some [(1 : ℚ)]
    ∧ mOne.forward [] [] = [[(0 : ℚ)]]
    ∧ ¬ dictLookup "a" ((mkService mOne ["a"]).get_embeddings (some ["a"]))
        = some ((mOne.forward [] []).getD 0 []) := by
  have h2 : dictLookup "a" ((mkService mOne ["a"]).get_embeddings (some ["a"]))
      = some [(1 : ℚ)] := rfl
  have h3 : mOne.forward [] [] = [[(0 : ℚ)]] := by
    norm_num [mOne, RGCNModel.forward, pyEnumFrom, applyRGCNConv, matVec, dot,
      vadd, List.range_succ, RGCNConv.outDim, List.replicate]
  refine ⟨mOne_WF, h2, h3, ?_⟩
  rw [h2, h3]
  simp

/-- Claim C1, amended: for every service state, every requested identifier
that the Graph Index maps to a node index is answered with the corresponding
row of the base Embedding Table (`model.node_embedding.weight`) — not with
the forward-pass output of the convolution stack. -/
theorem get_embeddings_serves_table (s : EmbeddingService) (ids : List String)
    (q : String) (i : Nat) (hmem : q ∈ ids)
    (hq : dictLookup q s.entity_to_node = some i) :
    dictLookup q (s.get_embeddings (some ids))
      = some (s.model.node_embedding.getD i []) := by
  rw [dictLookup_get_embeddings, if_pos hmem, hq]
  rfl

/-- Witness for the amended claim C1 at a concrete two-node service. -/
theorem get_embeddings_serves_table_witness :
    "a" ∈ ["a"]
    ∧ dictLookup "a" (mkService mTwo ["a", "b"]).entity_to_node = some 0
    ∧ dictLookup "a" ((mkService mTwo ["a", "b"]).get_embeddings (some ["a"]))
        = some ((mkService mTwo ["a", "b"]).model.node_embedding.getD 0 []) :=
  ⟨by decide, by decide,
    get_embeddings_serves_table (mkService mTwo ["a", "b"]) ["a"] "a" 0
      (by decide) (by decide)⟩

/-! ### Claim C4 -/

/-- Claim C4, counterexample: on an empty entity set, `startup` does not
signal `EmptyGraphError` (or any exception) to the caller — it returns
normally in the degraded state after printing a warning. -/
theorem startup_empty_no_error :
    startup true emptyGraphData = Except.ok StartupOutcome.degraded
    ∧ startup true emptyGraphData ≠ Except.error StartupError.emptyGraphError := by
  constructor
  · rfl
  · simp [startup, emptyGraphData]

/-- Claim C4, amended: when graph ingestion produces an empty entity set,
`startup` returns early without constructing the model (outcome `degraded`),
merely printing a warning; no `EmptyGraphError` or other exception reaches
the caller. -/
theorem startup_empty_degraded (g : GraphData) (hg : g.entity_ids = []) :
    startup true g = Except.ok StartupOutcome.degraded := by
  unfold startup
  rw [hg]
  simp

/-- Witness for the amended claim C4 at the concrete empty graph. -/
theorem startup_empty_degraded_witness :
    emptyGraphData.entity_ids = []
    ∧ startup true emptyGraphData = Except.ok StartupOutcome.degraded :=
  ⟨rfl, startup_empty_degraded emptyGraphData rfl⟩

/-! ### Claim C5 -/

/-- Claim C5, counterexample: with the duplicate entity-id list
`["a", "a"]` (two nodes), the built `entity_to_node` has a single entry
`("a", 1)` — its size is 1, not `num_nodes = 2`, so the mappings are not a
bijection when ingestion produces duplicate identifier strings. -/
theorem build_mappings_duplicate_collapse :
    (build_mappings ["a", "a"]).1 = [("a", 1)]
    ∧ (build_mappings ["a", "a"]).1.length = 1
    ∧ (["a", "a"] : List String).length = 2
    ∧ (build_mappings ["a", "a"]).2.length = 2 := by
  refine ⟨rfl, rfl, rfl, rfl⟩

/-- Claim C5, amended: when the entity-id sequence is duplicate-free, the
built mappings satisfy `len(entity_to_node) = len(node_to_entity) =
num_nodes` and are exact inverses of each other; with duplicate identifier
strings the invariant fails (see the counterexample). -/
theorem mappings_bijective (ids : List String) (hnd : ids.Nodup) :
    (build_mappings ids).1.length = ids.length
    ∧ (build_mappings ids).2.length = ids.length
    ∧ ∀ (s : String) (i : Nat),
        dictLookup s (build_mappings ids).1 = some i
          ↔ dictLookup i (build_mappings ids).2 = some s := by
  refine ⟨?_, ?_, ?_⟩
  · rw [build_mappings_eq_of_nodup ids hnd]
    simp [pyEnumFrom_length]
  · rw [build_mappings_eq_of_nodup ids hnd]
    simp [pyEnumFrom_length]
  · intro s i
    rw [dictLookup_entity_to_node ids hnd, dictLookup_node_to_entity ids hnd]

/-- Witness for the amended claim C5 at a concrete two-entity list. -/
theorem mappings_bijective_witness :
    (["a", "b"] : List String).Nodup
    ∧ (build_mappings ["a", "b"]).1.length = 2
    ∧ (build_mappings ["a", "b"]).2.length = 2
    ∧ (dictLookup "b" (build_mappings ["a", "b"]).1 = some 1
        ↔ dictLookup 1 (build_mappings ["a", "b"]).2 = some "b") := by
  have h := mappings_bijective ["a", "b"] (by decide)
  exact ⟨by decide, h.1, h.2.1, h.2.2 "b" 1⟩

/-! ### Claim C8 -/

/-- Claim C8: unresolved identifiers are not errors.  `get_embeddings`
answers exactly the requested identifiers that resolve through the Graph
Index (unmapped ones are silently dropped, so the result may be a proper
subset of the request), and `find_similar_entities` on an unmapped
identifier returns the empty list instead of raising. -/
theorem unmapped_ids_not_errors (s s' : EmbeddingService) (ids : List String)
    (q q' : String) (k : Int)
    (hq : dictLookup q s.entity_to_node = none) :
    ((dictLookup q' (s'.get_embeddings (some ids))).isSome
      ↔ (q' ∈ ids ∧ (dictLookup q' s'.entity_to_node).isSome))
    ∧ s.find_similar_entities q k = [] := by
  constructor
  · rw [dictLookup_get_embeddings]
    by_cases hmem : q' ∈ ids
    · simp [hmem]
    · simp [hmem]
  · unfold EmbeddingService.find_similar_entities
    rw [hq]
    simp

/-- Witness for claim C8 at a concrete two-node service and the unmapped
identifier `z`. -/
theorem unmapped_ids_not_errors_witness :
    dictLookup "z" (mkService mTwo ["a", "b"]).entity_to_node = none
    ∧ (((dictLookup "a" ((mkService mTwo ["a", "b"]).get_embeddings
          (some ["a", "z"]))).isSome
        ↔ ("a" ∈ ["a", "z"]
            ∧ (dictLookup "a" (mkService mTwo ["a", "b"]).entity_to_node).isSome))
       ∧ (mkService mTwo ["a", "b"]).find_similar_entities "z" 5 = []) :=
  ⟨by decide,
    unmapped_ids_not_errors (mkService mTwo ["a", "b"]) (mkService mTwo ["a", "b"])
      ["a", "z"] "z" "a" 5 (by decide)⟩

/-! ### Claim C9 -/

/-- Claim C9, counterexample: the cosine similarity of the zero vector with
itself is 0, not 1, so "the similarity of any vector with itself is 1.0"
fails at zero-norm vectors (where the zero-norm clause takes precedence). -/
theorem cosineSim_zero_vector_not_one :
    cosineSim [(0 : ℚ)] [(0 : ℚ)] = 0
    ∧ ¬ cosineSim [(0 : ℚ)] [(0 : ℚ)] = 1 := by
  have h0 : cosineSim [(0 : ℚ)] [(0 : ℚ)] = 0 :=
    cosineSim_zero_left [0] [0] (by norm_num [dot])
  refine ⟨h0, ?_⟩
  rw [h0]
  norm_num

/-- Claim C9, amended: the cosine similarity of any vector of nonzero norm
with itself is exactly 1 (in exact arithmetic, hence within floating-point
tolerance), and any similarity involving a zero-norm vector — on either
side, including the zero vector with itself — is exactly 0, never NaN
(division by a zero norm is never performed). -/
theorem cosineSim_self_one_and_zero_norm (a b c : List ℚ)
    (ha : dot a a ≠ 0) (hb : dot b b = 0) :
    cosineSim a a = 1 ∧ cosineSim b c = 0 ∧ cosineSim c b = 0 :=
  ⟨cosineSim_self a ha, cosineSim_zero_left b c hb, cosineSim_zero_right b c hb⟩

/-- Witness for the amended claim C9 at concrete vectors. -/
theorem cosineSim_self_one_and_zero_norm_witness :
    dot [(1 : ℚ)] [(1 : ℚ)] ≠ 0
    ∧ dot [(0 : ℚ)] [(0 : ℚ)] = 0
    ∧ (cosineSim [(1 : ℚ)] [(1 : ℚ)] = 1
        ∧ cosineSim [(0 : ℚ)] [(2 : ℚ)] = 0
        ∧ cosineSim [(2 : ℚ)] [(0 : ℚ)] = 0) :=
  ⟨by norm_num [dot], by norm_num [dot],
    cosineSim_self_one_and_zero_norm [1] [0] [2] (by norm_num [dot])
      (by norm_num [dot])⟩

/-! ### Claim C6 -/

theorem forall₂_mem_left {α β : Type} (R : α → β → Prop) :
    ∀ (l1 : List α) (l2 : List β), List.Forall₂ R l1 l2 →
      ∀ a ∈ l1, ∃ b ∈ l2, R a b := by
  intro l1 l2 hf
  induction hf with
  | nil => intro a ha; exact absurd ha (List.not_mem_nil a)
  | @cons x y t1 t2 hxy hrest ih =>
      intro a ha
      rcases List.mem_cons.mp ha with rfl | ha'
      · exact ⟨y, List.mem_cons_self y t2, hxy⟩
      · rcases ih a ha' with ⟨b, hb, hab⟩
        exact ⟨b, List.mem_cons_of_mem y hb, hab⟩

/-- Claim C6: one call to `train_epoch`, with the two `torch.randint` draws
supplied as oracle lists of the shape the code requests
(`num_edges * num_negative_samples` values each, all in `[0, num_nodes)`),
uses exactly `k × num_edges` negative pairs — the two draws zipped, nothing
filtered out even when a pair coincides with a true edge or a self-pair —
scores positive edges and negative pairs as the dot product of the source
and target rows of the forward-pass embedding matrix (no relation type
enters the score), and returns the sum of the mean binary cross-entropy of
the positive scores against target 1 and of the negative scores against
target 0. -/
theorem train_epoch_spec (m : RGCNModel) (edge_index : List (Nat × Nat))
    (edge_type : List Nat) (k : Nat) (neg_source neg_target : List Nat)
    (hs : neg_source.length = edge_index.length * k)
    (ht : neg_target.length = edge_index.length * k)
    (hsr : ∀ i ∈ neg_source, i < m.num_nodes)
    (htr : ∀ i ∈ neg_target, i < m.num_nodes) :
    (sample_negative_edges neg_source neg_target).length = edge_index.length * k
    ∧ (∀ p ∈ sample_negative_edges neg_source neg_target,
        p.1 < m.num_nodes ∧ p.2 < m.num_nodes)
    ∧ score_edges (m.forward edge_index edge_type) edge_index
        = edge_index.map (fun e =>
            dot ((m.forward edge_index edge_type).getD e.1 [])
                ((m.forward edge_index edge_type).getD e.2 []))
    ∧ train_epoch_loss m edge_index edge_type neg_source neg_target
        = bce_with_logits_mean
            (score_edges (m.forward edge_index edge_type) edge_index) 1
          + bce_with_logits_mean
              (score_edges (m.forward edge_index edge_type)
                (sample_negative_edges neg_source neg_target)) 0 := by
  refine ⟨?_, ?_, rfl, rfl⟩
  · unfold sample_negative_edges
    rw [List.length_zip, hs, ht, Nat.min_self]
  · rintro ⟨a, b⟩ hp
    unfold sample_negative_edges at hp
    have hab := List.of_mem_zip hp
    exact ⟨hsr a hab.1, htr b hab.2⟩

/-- Witness for claim C6 at a concrete two-node model with one edge and one
negative draw per side. -/
theorem train_epoch_spec_witness :
    ([0] : List Nat).length = ([((0 : Nat), (1 : Nat))]).length * 1
    ∧ ([1] : List Nat).length = ([((0 : Nat), (1 : Nat))]).length * 1
    ∧ (∀ i ∈ ([0] : List Nat), i < mTwo.num_nodes)
    ∧ (∀ i ∈ ([1] : List Nat), i < mTwo.num_nodes)
    ∧ ((sample_negative_edges [0] [1]).length = ([((0 : Nat), (1 : Nat))]).length * 1
       ∧ (∀ p ∈ sample_negative_edges [0] [1],
            p.1 < mTwo.num_nodes ∧ p.2 < mTwo.num_nodes)
       ∧ score_edges (mTwo.forward [(0, 1)] [0]) [(0, 1)]
           = [(0, 1)].map (fun e =>
               dot ((mTwo.forward [(0, 1)] [0]).getD e.1 [])
                   ((mTwo.forward [(0, 1)] [0]).getD e.2 []))
       ∧ train_epoch_loss mTwo [(0, 1)] [0] [0] [1]
           = bce_with_logits_mean (score_edges (mTwo.forward [(0, 1)] [0]) [(0, 1)]) 1
             + bce_with_logits_mean
                 (score_edges (mTwo.forward [(0, 1)] [0])
                   (sample_negative_edges [0] [1])) 0) :=
  ⟨by decide, by decide, by decide, by decide,
    train_epoch_spec mTwo [(0, 1)] [0] 1 [0] [1]
      (by decide) (by decide) (by decide) (by decide)⟩

/-! ### Claim C7 -/

/-- Claim C7: for every layer count `L ≥ 1` the constructor's layer schedule
equals the spec's fixed dimension schedule; the forward pass applies the
layers with the rectified-linear nonlinearity after every layer except the
last; and on a well-formed model state the forward output has shape
`[num_nodes, embedding_dim]`. -/
theorem conv_stack_schedule (e h L : Nat) (m : RGCNModel)
    (edge_index : List (Nat × Nat)) (edge_type : List Nat)
    (hL : 1 ≤ L) (hwf : m.WF) (he : m.embedding_dim = e) (hh : m.hidden_dim = h)
    (hLm : m.num_layers = L) :
    convDims e h L = specDimSchedule e h L
    ∧ m.forward edge_index edge_type
        = forwardReluExceptLast edge_index edge_type m.convs m.node_embedding
    ∧ (m.forward edge_index edge_type).length = m.num_nodes
    ∧ (∀ row ∈ m.forward edge_index edge_type, row.length = e) := by
  have hsched : convDims e h L = specDimSchedule e h L := by
    unfold convDims specDimSchedule
    by_cases h1 : L = 1
    · simp [h1]
    · simp [h1, List.map_const, List.length_range]
  have hfe := m.forward_eq_reluExceptLast edge_index edge_type
  have hwf3 := hwf.2.2
  have hne2 : convDims m.embedding_dim m.hidden_dim m.num_layers ≠ [] :=
    convDims_ne_nil _ _ _
  have hne1 : m.convs ≠ [] := forall₂_ne_nil _ _ _ hwf3 hne2
  refine ⟨hsched, hfe, ?_, ?_⟩
  · rw [hfe, forwardReluExceptLast_length, hwf.1]
  · intro row hrow
    rw [hfe] at hrow
    have hlayers : ∀ c ∈ m.convs, ∀ W ∈ c.relW, W.length = c.selfW.length := by
      intro c hc W hW
      rcases forall₂_mem_left _ _ _ hwf3 c hc with ⟨d, _, hR⟩
      rw [hR.2.2 W hW, hR.1]
    have hrl := forwardReluExceptLast_rows edge_index edge_type m.convs
      m.node_embedding hne1 hlayers row hrow
    rw [hrl]
    have hlast := forall₂_getLast _ m.convs _ hwf3 hne1 hne2
    rw [hlast.1, convDims_getLast]
    by_cases h1 : m.num_layers = 1 <;> simp [h1, he]

/-- Witness for claim C7 at the concrete one-layer model. -/
theorem conv_stack_schedule_witness :
    1 ≤ 1 ∧ mOne.WF ∧ mOne.embedding_dim = 1 ∧ mOne.hidden_dim = 1
    ∧ mOne.num_layers = 1
    ∧ (convDims 1 1 1 = specDimSchedule 1 1 1
       ∧ mOne.forward [] []
           = forwardReluExceptLast [] [] mOne.convs mOne.node_embedding
       ∧ (mOne.forward [] []).length = mOne.num_nodes
       ∧ (∀ row ∈ mOne.forward [] [], row.length = 1)) :=
  ⟨le_refl 1, mOne_WF, rfl, rfl, rfl,
    conv_stack_schedule 1 1 1 mOne [] [] (le_refl 1) mOne_WF rfl rfl rfl⟩

/-! ### Support for the `find_similar_entities` claims -/

theorem mem_pyEnumFrom_getElem {α : Type} : ∀ (n : Nat) (l : List α)
    (p : Nat × α), p ∈ pyEnumFrom n l → l[p.1 - n]? = some p.2 := by
  intro n l
  induction l generalizing n with
  | nil => intro p hp; simp [pyEnumFrom] at hp
  | cons a t ih =>
      intro p hp
      simp only [pyEnumFrom, List.mem_cons] at hp
      rcases hp with rfl | hp'
      · simp
      · have hge : n + 1 ≤ p.1 := mem_pyEnumFrom_fst_ge (n + 1) t p hp'
        have h2 : p.1 - n = (p.1 - (n + 1)) + 1 := by omega
        rw [h2, List.getElem?_cons_succ]
        exact ih (n + 1) p hp'

/-- The query guard of `find_similar_entities` for a mapped identifier:
the function reduces to slicing the stable descending sort of the scored
candidate list. -/
theorem find_similar_eq (s : EmbeddingService) (q : String) (k : Int)
    (qe : List ℚ) (i : Nat)
    (hq : dictLookup q s.entity_to_node = some i)
    (hlook : dictLookup q (s.get_embeddings (some [q])) = some qe) :
    s.find_similar_entities q k
      = pySliceTo k (sortDesc (((s.get_embeddings none).filter
          (fun p => ¬ (p.1 = q))).map
          (fun p => { entity_id := p.1, score := cosineSim qe p.2,
                      label := "Entity" : SimResult }))) := by
  unfold EmbeddingService.find_similar_entities
  rw [hq, hlook]
  rfl

/-- The full-table dictionary the service iterates over, for the mappings
built from a duplicate-free entity list: one entry per node, in node-index
order. -/
theorem get_embeddings_none_mkService (m : RGCNModel) (ids : List String)
    (hnd : ids.Nodup) :
    (mkService m ids).get_embeddings none
      = (pyEnumFrom 0 ids).map (fun p => (p.2, m.node_embedding.getD p.1 [])) := by
  have hkeys : (((mkService m ids).node_to_entity).map Prod.snd).Nodup := by
    show ((build_mappings ids).2.map Prod.snd).Nodup
    rw [build_mappings_eq_of_nodup ids hnd, pyEnumFrom_map_snd]
    exact hnd
  rw [get_embeddings_none_eq (mkService m ids) hkeys]
  show ((build_mappings ids).2).map _ = _
  rw [build_mappings_eq_of_nodup ids hnd]
  rfl

/-- A mapped identifier of a duplicate-free entity list resolves through the
built `entity_to_node`. -/
theorem lookup_exists_of_mem (ids : List String) (hnd : ids.Nodup) (q : String)
    (hq : q ∈ ids) : ∃ i, dictLookup q (build_mappings ids).1 = some i := by
  rcases List.mem_iff_getElem?.mp hq with ⟨i, hi⟩
  exact ⟨i, (dictLookup_entity_to_node ids hnd q i).mpr hi⟩

theorem length_filter_pyEnumFrom_snd (pred : String → Bool) :
    ∀ (n : Nat) (ids : List String),
      ((pyEnumFrom n ids).filter (fun p => pred p.2)).length
        = (ids.filter pred).length := by
  intro n ids
  induction ids generalizing n with
  | nil => rfl
  | cons a t ih =>
      simp only [pyEnumFrom, List.filter_cons]
      by_cases hp : pred a
      · simp only [hp, if_pos]
        simp [ih (n + 1)]
      · simp only [hp]
        simp [ih (n + 1)]

theorem length_filter_ne_of_nodup (ids : List String) (q : String)
    (hnd : ids.Nodup) (hq : q ∈ ids) :
    (ids.filter (fun s => ¬ (s = q))).length = ids.length - 1 := by
  induction ids with
  | nil => exact absurd hq (List.not_mem_nil q)
  | cons a t ih =>
      rw [List.nodup_cons] at hnd
      rcases List.mem_cons.mp hq with rfl | hq'
      · rw [List.filter_cons]
        have hfix : t.filter (fun s => ¬ (s = q)) = t :=
          List.filter_eq_self.mpr (fun x hx => by
            simp only [decide_eq_true_eq]
            rintro rfl
            exact hnd.1 hx)
        simp [hfix]
        intro x hx
        rintro rfl
        exact hnd.1 hx
      · have hne : ¬ (a = q) := by rintro rfl; exact hnd.1 hq'
        rw [List.filter_cons, if_pos (by simpa using hne)]
        have ht1 : 1 ≤ t.length := List.length_pos.mpr (List.ne_nil_of_mem hq')
        rw [List.length_cons, List.length_cons, ih hnd.2 hq']
        omega

/-- The number of scored candidates for a mapped query over a duplicate-free
entity list: every entity except the query itself. -/
theorem sims_length (m : RGCNModel) (ids : List String) (q : String)
    (qe : List ℚ) (hnd : ids.Nodup) (hq : q ∈ ids) :
    ((((mkService m ids).get_embeddings none).filter
      (fun p => ¬ (p.1 = q))).map
      (fun p => { entity_id := p.1, score := cosineSim qe p.2,
                  label := "Entity" : SimResult })).length = ids.length - 1 := by
  rw [List.length_map, get_embeddings_none_mkService m ids hnd]
  rw [List.filter_map
    (fun p : Nat × String => (p.2, m.node_embedding.getD p.1 []))
    (pyEnumFrom 0 ids)]
  rw [List.length_map]
  have h1 := length_filter_pyEnumFrom_snd (fun s => decide (¬ (s = q))) 0 ids
  have h2 : ((fun p : String × List ℚ => decide (¬ (p.1 = q))) ∘
      (fun p : Nat × String => (p.2, m.node_embedding.getD p.1 [])))
      = fun p : Nat × String => decide (¬ (p.2 = q)) := rfl
  rw [h2]
  rw [show (fun p : Nat × String => decide (¬ (p.2 = q)))
      = (fun p : Nat × String => (fun s => decide (¬ (s = q))) p.2) from rfl, h1]
  exact length_filter_ne_of_nodup ids q hnd hq

/-- The length of a `find_similar_entities` result for a mapped query:
Python slice semantics applied to the candidate count. -/
theorem find_similar_length (m : RGCNModel) (ids : List String) (q : String)
    (k : Int) (hnd : ids.Nodup) (hq : q ∈ ids) :
    ((mkService m ids).find_similar_entities q k).length
      = if 0 ≤ k then min k.toNat (ids.length - 1)
        else min (((ids.length - 1 : Nat) : Int) + k).toNat (ids.length - 1) := by
  rcases lookup_exists_of_mem ids hnd q hq with ⟨i, hi⟩
  have hlook : dictLookup q ((mkService m ids).get_embeddings (some [q]))
      = some ((mkService m ids).model.node_embedding.getD i []) := by
    rw [dictLookup_get_embeddings]
    rw [if_pos (List.mem_singleton.mpr rfl)]
    show ((dictLookup q (build_mappings ids).1).map _) = _
    rw [hi]
    rfl
  rw [find_similar_eq (mkService m ids) q k _ i hi hlook]
  rw [length_pySliceTo, length_sortDesc, sims_length m ids q _ hnd hq]

/-- The scored candidate list, for a duplicate-free entity set, is generated
in ascending node-index order: any earlier candidate resolves to a strictly
smaller node index than any later one. -/
theorem sims_pairwise (m : RGCNModel) (ids : List String) (q : String)
    (qe : List ℚ) (hnd : ids.Nodup) :
    ((((mkService m ids).get_embeddings none).filter
      (fun p => ¬ (p.1 = q))).map
      (fun p => { entity_id := p.1, score := cosineSim qe p.2,
                  label := "Entity" : SimResult })).Pairwise
      (fun a b => ∃ i j,
        dictLookup a.entity_id (mkService m ids).entity_to_node = some i
        ∧ dictLookup b.entity_id (mkService m ids).entity_to_node = some j
        ∧ i < j) := by
  rw [get_embeddings_none_mkService m ids hnd]
  rw [List.pairwise_map]
  have henum : (pyEnumFrom 0 ids).Pairwise (fun p p' =>
      ∃ i j, dictLookup p.2 (build_mappings ids).1 = some i
        ∧ dictLookup p'.2 (build_mappings ids).1 = some j ∧ i < j) := by
    refine (pyEnumFrom_pairwise_fst 0 ids).imp_of_mem ?_
    intro p p' hp hp' hlt
    have hp2 := mem_pyEnumFrom_getElem 0 ids p hp
    have hq2 := mem_pyEnumFrom_getElem 0 ids p' hp'
    simp only [Nat.sub_zero] at hp2 hq2
    exact ⟨p.1, p'.1, (dictLookup_entity_to_node ids hnd _ _).mpr hp2,
      (dictLookup_entity_to_node ids hnd _ _).mpr hq2, hlt⟩
  have hmap : ((pyEnumFrom 0 ids).map
      (fun p => (p.2, m.node_embedding.getD p.1 []))).Pairwise
      (fun x y => ∃ i j, dictLookup x.1 (build_mappings ids).1 = some i
        ∧ dictLookup y.1 (build_mappings ids).1 = some j ∧ i < j) :=
    List.pairwise_map.mpr henum
  exact hmap.sublist (List.filter_sublist _)

/-! ### Claim C2 -/

/-- Claim C2: for every mapped query over a duplicate-free entity set and
every `top_k`, the `find_similar_entities` result is sorted in non-increasing
score order, and among entries of equal score the one whose entity id
resolves to the smaller node index comes first (the stable sort keeps the
ascending-index generation order). -/
theorem find_similar_sorted_tiebreak (m : RGCNModel) (ids : List String)
    (q : String) (k : Int) (hnd : ids.Nodup) (hq : q ∈ ids) :
    ((mkService m ids).find_similar_entities q k).Pairwise
      (fun a b => b.score ≤ a.score ∧ (a.score = b.score →
        ∃ i j, dictLookup a.entity_id (mkService m ids).entity_to_node = some i
          ∧ dictLookup b.entity_id (mkService m ids).entity_to_node = some j
          ∧ i < j)) := by
  rcases lookup_exists_of_mem ids hnd q hq with ⟨i, hi⟩
  have hlook : dictLookup q ((mkService m ids).get_embeddings (some [q]))
      = some ((mkService m ids).model.node_embedding.getD i []) := by
    rw [dictLookup_get_embeddings, if_pos (List.mem_singleton.mpr rfl)]
    show ((dictLookup q (build_mappings ids).1).map _) = _
    rw [hi]
    rfl
  rw [find_similar_eq (mkService m ids) q k _ i hi hlook]
  have hsims := sims_pairwise m ids q
    ((mkService m ids).model.node_embedding.getD i []) hnd
  have hsort := sortDesc_pairwise _ _ hsims
  have hslice := hsort.sublist (pySliceTo_sublist k _)
  refine hslice.imp ?_
  intro a b hab
  rcases hab with hlt | ⟨heq, hP⟩
  · refine ⟨le_of_lt hlt, ?_⟩
    intro heq
    rw [heq] at hlt
    exact absurd hlt (lt_irrefl _)
  · exact ⟨le_of_eq heq.symm, fun _ => hP⟩

/-- Witness for claim C2 at a concrete two-node service. -/
theorem find_similar_sorted_tiebreak_witness :
    (["a", "b"] : List String).Nodup ∧ "a" ∈ (["a", "b"] : List String)
    ∧ ((mkService mTwo ["a", "b"]).find_similar_entities "a" 5).Pairwise
      (fun a b => b.score ≤ a.score ∧ (a.score = b.score →
        ∃ i j, dictLookup a.entity_id (mkService mTwo ["a", "b"]).entity_to_node = some i
          ∧ dictLookup b.entity_id (mkService mTwo ["a", "b"]).entity_to_node = some j
          ∧ i < j)) :=
  ⟨by decide, by decide,
    find_similar_sorted_tiebreak mTwo ["a", "b"] "a" 5 (by decide) (by decide)⟩

/-! ### Claim C3 -/

/-- Claim C3, counterexample: over the three-entity graph (two candidates),
`find_similar_entities` with `top_k = -1` returns one entry, not the empty
list the claim requires for `top_k ≤ 0` — Python's `[:top_k]` slice with a
negative bound drops elements from the end instead of yielding `[]`. -/
theorem find_similar_negative_topk_not_empty :
    ((mkService mThree ["a", "b", "c"]).find_similar_entities "a" (-1)).length = 1
    ∧ (mkService mThree ["a", "b", "c"]).find_similar_entities "a" (-1) ≠ [] := by
  have h := find_similar_length mThree ["a", "b", "c"] "a" (-1)
    (by decide) (by decide)
  have h1 : ((mkService mThree ["a", "b", "c"]).find_similar_entities
      "a" (-1)).length = 1 := by
    rw [h]
    decide
  refine ⟨h1, ?_⟩
  intro hnil
  rw [hnil] at h1
  simp at h1

/-- Claim C3, amended: for a mapped query over a duplicate-free entity set
with `n = num_entities - 1` candidates, `top_k = 0` yields the empty list;
`top_k > 0` yields `min top_k n` entries — in particular all `n` candidates
whenever `top_k ≥ n`; but a negative `top_k` follows Python slice semantics
and yields the first `max (n + top_k) 0` candidates (all but the last
`|top_k|`), not the empty list. -/
theorem find_similar_topk_semantics (m : RGCNModel) (ids : List String)
    (q : String) (k : Int) (hnd : ids.Nodup) (hq : q ∈ ids) :
    (k = 0 → (mkService m ids).find_similar_entities q k = [])
    ∧ (0 ≤ k → ((mkService m ids).find_similar_entities q k).length
        = min k.toNat (ids.length - 1))
    ∧ (((ids.length - 1 : Nat) : Int) ≤ k →
        ((mkService m ids).find_similar_entities q k).length = ids.length - 1)
    ∧ (k < 0 → ((mkService m ids).find_similar_entities q k).length
        = min (((ids.length - 1 : Nat) : Int) + k).toNat (ids.length - 1)) := by
  have h := find_similar_length m ids q k hnd hq
  refine ⟨?_, ?_, ?_, ?_⟩
  · rintro rfl
    rw [← List.length_eq_zero, h]
    simp
  · intro hk
    rw [h, if_pos hk]
  · intro hk
    have hk0 : 0 ≤ k := le_trans (by positivity) hk
    rw [h, if_pos hk0]
    omega
  · intro hk
    rw [h, if_neg (by omega)]

/-- Witness for the amended claim C3 at a concrete three-node service. -/
theorem find_similar_topk_semantics_witness :
    (["a", "b", "c"] : List String).Nodup
    ∧ "a" ∈ (["a", "b", "c"] : List String)
    ∧ ((0 : Int) = 0 → (mkService mThree ["a", "b", "c"]).find_similar_entities "a" 0 = [])
    ∧ ((0 : Int) ≤ 0 → ((mkService mThree ["a", "b", "c"]).find_similar_entities "a" 0).length
        = min (0 : Int).toNat ((["a", "b", "c"] : List String).length - 1)) := by
  have h := find_similar_topk_semantics mThree ["a", "b", "c"] "a" 0
    (by decide) (by decide)
  exact ⟨by decide, by decide, h.1, h.2.1⟩

/-! ### Claim C10 -/

/-- Claim C10: every entry of every `find_similar_entities` result carries
the constant label string `Entity`, whatever the entity's label in the graph
is — the service hard-codes the field. -/
theorem find_similar_label_entity (s : EmbeddingService) (q : String) (k : Int) :
    ∀ r ∈ s.find_similar_entities q k, r.label = "Entity" := by
  intro r hr
  unfold EmbeddingService.find_similar_entities at hr
  by_cases hq : (dictLookup q s.entity_to_node).isNone = true
  · rw [if_pos hq] at hr
    exact absurd hr (List.not_mem_nil r)
  · rw [if_neg hq] at hr
    rcases hlk : dictLookup q (s.get_embeddings (some [q])) with _ | qe
    · rw [hlk] at hr
      exact absurd hr (List.not_mem_nil r)
    · rw [hlk] at hr
      have hr2 := (pySliceTo_sublist k _).subset hr
      rw [mem_sortDesc] at hr2
      rcases List.mem_map.mp hr2 with ⟨p, _, hp⟩
      rw [← hp]

/-- Witness for claim C10: the single result entry of a concrete query
carries the label `Entity`. -/
theorem find_similar_label_entity_witness :
    ({ entity_id := "b", score := cosineSim [(1 : ℚ)] [(1 : ℚ)],
       label := "Entity" } : SimResult)
      ∈ (mkService mTwo ["a", "b"]).find_similar_entities "a" 10
    ∧ ({ entity_id := "b", score := cosineSim [(1 : ℚ)] [(1 : ℚ)],
         label := "Entity" } : SimResult).label = "Entity" := by
  have heq : (mkService mTwo ["a", "b"]).find_similar_entities "a" 10
      = [{ entity_id := "b", score := cosineSim [(1 : ℚ)] [(1 : ℚ)],
           label := "Entity" }] := rfl
  have hmem : ({ entity_id := "b", score := cosineSim [(1 : ℚ)] [(1 : ℚ)], label := "Entity" } : SimResult) ∈ (mkService mTwo ["a", "b"]).find_similar_entities "a" 10 := by
    rw [heq]
    exact List.mem_singleton.mpr rfl
  exact ⟨hmem, find_similar_label_entity (mkService mTwo ["a", "b"]) "a" 10 _ hmem⟩

end RGCN
